import Mathlib

/-!
Verification of the array-partitioning utility (`chunk`) of this repository.

The source is the TypeScript function

  export function chunk<T>(array: T[], size: number) {
    if (array.length === 0) { return []; }
    const chunks = [];
    for (let i = 0; i < array.length; i += size) {
      chunks.push(array.slice(i, i + size));
    }
    return chunks;
  }

We embed it shallowly: the array is a `List T`; the JavaScript number
`size` is modelled as an integer `ℤ` (a second embedding with `size : ℚ`
covers non-integer sizes where a claim needs them).  The `for` loop is
translated as an explicitly fuelled tail recursion: `none` means the loop
did not finish within the given fuel; running out of every fuel models
nontermination of the source loop.  `Array.prototype.slice` is translated
with its ECMAScript clamping semantics for integer arguments.
-/

namespace ChunkSpec

/-- ECMAScript `Array.prototype.slice(start, stop)` for integer arguments:
negative indices count from the end, both endpoints are clamped to
`[0, length]`, and the extracted range is `[lo, hi)` (empty when
`hi ≤ lo`). -/
def sliceJS {T : Type} (l : List T) (start stop : ℤ) : List T :=
  let n : ℤ := l.length
  let lo : ℤ := if start < 0 then max (n + start) 0 else min start n
  let hi : ℤ := if stop < 0 then max (n + stop) 0 else min stop n
  (l.drop lo.toNat).take (hi - lo).toNat

/-- The body of `for (let i = 0; i < array.length; i += size)
\x7b chunks.push(array.slice(i, i + size)); \x7d`, with explicit fuel:
`acc` is the `chunks` accumulator, `i` the loop index.  `none` means the
loop made more than `fuel` iterations. -/
def chunkLoop {T : Type} (array : List T) (size : ℤ) :
    ℕ → ℤ → List (List T) → Option (List (List T))
  | 0, _, _ => none
  | fuel + 1, i, acc =>
    if i < (array.length : ℤ) then
      chunkLoop array size fuel (i + size) (acc ++ [sliceJS array i (i + size)])
    else
      some acc

/-- The exported `chunk` function: the empty-array check, then the loop
starting at `i = 0` with an empty accumulator.  The fuel
`array.length + 1` is enough for every positive integer `size` (proved
below); `none` models a loop that does not terminate. -/
def chunk {T : Type} (array : List T) (size : ℤ) : Option (List (List T)) :=
  if array.length = 0 then some []
  else chunkLoop array size (array.length + 1) 0 []

/-- Truncation toward zero of a rational, as ECMAScript `ToIntegerOrInfinity`
does on finite numbers. -/
def truncQ (x : ℚ) : ℤ :=
  if 0 ≤ x then ⌊x⌋ else -⌊-x⌋

/-- `Array.prototype.slice` when the arguments are arbitrary (possibly
non-integer) finite numbers: each argument is first truncated toward
zero, then treated as in `sliceJS`. -/
def sliceQ {T : Type} (l : List T) (start stop : ℚ) : List T :=
  sliceJS l (truncQ start) (truncQ stop)

/-- The loop of `chunk` when `size` is an arbitrary finite number,
modelled as a rational: the index `i` lives in `ℚ` as well. -/
def chunkLoopQ {T : Type} (array : List T) (size : ℚ) :
    ℕ → ℚ → List (List T) → Option (List (List T))
  | 0, _, _ => none
  | fuel + 1, i, acc =>
    if i < (array.length : ℚ) then
      chunkLoopQ array size fuel (i + size) (acc ++ [sliceQ array i (i + size)])
    else
      some acc

/-- `chunk` with an arbitrary finite (possibly non-integer) number as
`size`, modelled as a rational. -/
def chunkQ {T : Type} (array : List T) (size : ℚ) : Option (List (List T)) :=
  if array.length = 0 then some []
  else chunkLoopQ array size (array.length + 1) 0 []

/-- The mathematical partition of a list into groups of `s` elements
(the last group possibly shorter); returns `[]` when `s = 0`, a case the
claims never use.  Reference function the loop is proved equal to. -/
def chunksOf {T : Type} : ℕ → List T → List (List T)
  | _, [] => []
  | 0, _ :: _ => []
  | s + 1, x :: xs =>
    ((x :: xs).take (s + 1)) :: chunksOf (s + 1) ((x :: xs).drop (s + 1))
  termination_by _ l => l.length
  decreasing_by simp [List.length_drop]; omega

theorem chunksOf_nil {T : Type} (s : ℕ) : chunksOf (T := T) s [] = [] := by
  cases s <;> simp [chunksOf]

theorem chunksOf_eq_cons {T : Type} (s : ℕ) (hs : 1 ≤ s) (l : List T)
    (hl : l ≠ []) :
    chunksOf s l = l.take s :: chunksOf s (l.drop s) := by
  cases s with
  | zero => omega
  | succ s' =>
    cases l with
    | nil => exact absurd rfl hl
    | cons x xs => simp [chunksOf]

theorem sliceJS_of_pos {T : Type} (l : List T) (j s : ℕ) (hj : j < l.length) :
    sliceJS l (j : ℤ) ((j : ℤ) + (s : ℤ)) = (l.drop j).take s := by
  simp only [sliceJS]
  rw [if_neg (by omega), if_neg (by omega)]
  have h1 : (min (j : ℤ) (l.length : ℤ)).toNat = j := by omega
  have h2 : (min ((j : ℤ) + (s : ℤ)) (l.length : ℤ)
      - min (j : ℤ) (l.length : ℤ)).toNat = min s (l.length - j) := by omega
  rw [h1, h2, List.take_eq_take]
  simp [List.length_drop]

theorem chunkLoop_eq_chunksOf {T : Type} (array : List T) (s : ℕ) (hs : 1 ≤ s) :
    ∀ (fuel j : ℕ) (acc : List (List T)), array.length - j < fuel →
      chunkLoop array (s : ℤ) fuel (j : ℤ) acc
        = some (acc ++ chunksOf s (array.drop j)) := by
  intro fuel
  induction fuel with
  | zero => intro j acc h; omega
  | succ fuel ih =>
    intro j acc h
    by_cases hj : j < array.length
    · rw [chunkLoop, if_pos (by exact_mod_cast hj)]
      rw [sliceJS_of_pos array j s hj]
      have hcast : (j : ℤ) + (s : ℤ) = ((j + s : ℕ) : ℤ) := by push_cast; ring
      rw [hcast, ih (j + s) (acc ++ [(array.drop j).take s]) (by omega)]
      rw [chunksOf_eq_cons s hs (array.drop j)
        (by rw [Ne, List.drop_eq_nil_iff]; omega)]
      rw [List.drop_drop]
      simp
    · rw [chunkLoop, if_neg (by exact_mod_cast hj)]
      rw [List.drop_eq_nil_iff.mpr (by omega), chunksOf_nil]
      simp

theorem chunk_eq_chunksOf {T : Type} (array : List T) (s : ℕ) (hs : 1 ≤ s) :
    chunk array (s : ℤ) = some (chunksOf s array) := by
  by_cases h : array.length = 0
  · have hnil : array = [] := List.length_eq_zero.mp h
    subst hnil
    simp [chunk, chunksOf_nil]
  · rw [chunk, if_neg h]
    have hmain := chunkLoop_eq_chunksOf array s hs (array.length + 1) 0 []
      (by omega)
    simpa using hmain

theorem chunksOf_flatten {T : Type} (s : ℕ) (hs : 1 ≤ s) :
    ∀ (n : ℕ) (l : List T), l.length ≤ n → (chunksOf s l).flatten = l := by
  intro n
  induction n with
  | zero =>
    intro l hl
    have hnil : l = [] := by cases l <;> simp_all
    subst hnil
    simp [chunksOf_nil]
  | succ n ih =>
    intro l hl
    cases l with
    | nil => simp [chunksOf_nil]
    | cons x xs =>
      rw [chunksOf_eq_cons s hs (x :: xs) (by simp), List.flatten_cons,
        ih ((x :: xs).drop s) (by simp [List.length_drop] at hl ⊢; omega)]
      exact List.take_append_drop s (x :: xs)

theorem ceil_step (s n : ℕ) (hs : 1 ≤ s) (hn : 1 ≤ n) :
    (n - s + s - 1) / s + 1 = (n + s - 1) / s := by
  by_cases h : n ≤ s
  · have h0 : n - s = 0 := by omega
    rw [h0, Nat.div_eq_of_lt (by omega),
      Nat.div_eq_of_lt_le (k := 1) (by omega) (by omega)]
  · have h1 : n - s + s - 1 = n - 1 := by omega
    have h2 : n + s - 1 = (n - 1) + s := by omega
    rw [h1, h2, Nat.add_div_right _ (by omega)]

theorem chunksOf_length {T : Type} (s : ℕ) (hs : 1 ≤ s) :
    ∀ (n : ℕ) (l : List T), l.length ≤ n →
      (chunksOf s l).length = (l.length + s - 1) / s := by
  intro n
  induction n with
  | zero =>
    intro l hl
    have hnil : l = [] := by cases l <;> simp_all
    subst hnil
    simp [chunksOf_nil, Nat.div_eq_of_lt (by omega : s - 1 < s)]
  | succ n ih =>
    intro l hl
    cases l with
    | nil => simp [chunksOf_nil, Nat.div_eq_of_lt (by omega : s - 1 < s)]
    | cons x xs =>
      rw [chunksOf_eq_cons s hs (x :: xs) (by simp), List.length_cons,
        ih ((x :: xs).drop s) (by simp [List.length_drop] at hl ⊢; omega),
        List.length_drop]
      exact ceil_step s (x :: xs).length hs (by simp)

theorem chunksOf_getElem {T : Type} (s : ℕ) (hs : 1 ≤ s) :
    ∀ (n : ℕ) (l : List T), l.length ≤ n →
      ∀ (k : ℕ) (hk : k < (chunksOf s l).length),
        (chunksOf s l)[k] = (l.drop (k * s)).take s := by
  intro n
  induction n with
  | zero =>
    intro l hl k hk
    have hnil : l = [] := by cases l <;> simp_all
    subst hnil
    rw [chunksOf_nil] at hk
    exact absurd hk (by simp)
  | succ n ih =>
    intro l hl k hk
    cases l with
    | nil =>
      rw [chunksOf_nil] at hk
      exact absurd hk (by simp)
    | cons x xs =>
      have hcons := chunksOf_eq_cons s hs (x :: xs) (by simp)
      cases k with
      | zero => simp only [hcons, List.getElem_cons_zero, Nat.zero_mul,
          List.drop_zero]
      | succ k =>
        have hk' : k < (chunksOf s ((x :: xs).drop s)).length := by
          rw [hcons] at hk
          simpa using hk
        simp only [hcons, List.getElem_cons_succ]
        rw [ih ((x :: xs).drop s) (by simp [List.length_drop] at hl ⊢; omega)
          k hk', List.drop_drop]
        have hix : s + k * s = (k + 1) * s := by ring
        rw [hix]

theorem chunksOf_mem_ne_nil {T : Type} (s : ℕ) (hs : 1 ≤ s) :
    ∀ (n : ℕ) (l : List T), l.length ≤ n → ∀ c ∈ chunksOf s l, c ≠ [] := by
  intro n
  induction n with
  | zero =>
    intro l hl c hc
    have hnil : l = [] := by cases l <;> simp_all
    subst hnil
    rw [chunksOf_nil] at hc
    exact absurd hc (by simp)
  | succ n ih =>
    intro l hl c hc
    cases l with
    | nil =>
      rw [chunksOf_nil] at hc
      exact absurd hc (by simp)
    | cons x xs =>
      rw [chunksOf_eq_cons s hs (x :: xs) (by simp), List.mem_cons] at hc
      rcases hc with hc | hc
      · subst hc
        rw [Ne, List.take_eq_nil_iff]
        push_neg
        exact ⟨by omega, by simp⟩
      · exact ih ((x :: xs).drop s) (by simp [List.length_drop] at hl ⊢; omega)
          c hc

theorem chunkLoop_none_of_nonpos {T : Type} (array : List T) (size : ℤ)
    (hsize : size ≤ 0) (hne : array ≠ []) :
    ∀ (fuel : ℕ) (i : ℤ), i ≤ 0 → ∀ acc, chunkLoop array size fuel i acc = none := by
  intro fuel
  induction fuel with
  | zero => intro i hi acc; rfl
  | succ fuel ih =>
    intro i hi acc
    have hlen : 1 ≤ array.length := List.length_pos.mpr hne
    rw [chunkLoop, if_pos (by omega)]
    exact ih (i + size) (by omega) _

theorem chunk_some_eq {T : Type} (array : List T) (s : ℕ) (hs : 1 ≤ s)
    (cs : List (List T)) (hcs : chunk array (s : ℤ) = some cs) :
    cs = chunksOf s array := by
  have h := chunk_eq_chunksOf array s hs
  rw [hcs] at h
  exact Option.some.inj h

theorem ceil_div_cases (s n : ℕ) (hs : 1 ≤ s) :
    (n + s - 1) / s = n / s + (if n % s = 0 then 0 else 1) := by
  have e1 := Nat.div_add_mod n s
  have hr : n % s < s := Nat.mod_lt n (by omega)
  by_cases h : n % s = 0
  · rw [if_pos h]
    have e2 : n + s - 1 = s * (n / s) + (s - 1) := by omega
    rw [e2, Nat.mul_add_div (m := s) (by omega),
      Nat.div_eq_of_lt (show s - 1 < s by omega)]
  · rw [if_neg h]
    have e2 : n + s - 1 = s * (n / s) + (n % s + s - 1) := by omega
    rw [e2, Nat.mul_add_div (m := s) (by omega),
      Nat.div_eq_of_lt_le (show 1 * s ≤ n % s + s - 1 by omega)
        (show n % s + s - 1 < (1 + 1) * s by omega)]

theorem ceil_div_rat (s n : ℕ) (hs : 1 ≤ s) :
    ⌈(n : ℚ) / (s : ℚ)⌉ = (((n + s - 1) / s : ℕ) : ℤ) := by
  have hs0 : (0 : ℚ) < (s : ℚ) := by exact_mod_cast (by omega : 0 < s)
  have h1 : ((n + s - 1) / s) * s ≤ n + s - 1 := Nat.div_mul_le_self _ _
  have h2 : n + s - 1 < ((n + s - 1) / s + 1) * s :=
    (Nat.div_lt_iff_lt_mul (by omega)).mp (Nat.lt_succ_self _)
  have h2' : ((n + s - 1) / s + 1) * s = ((n + s - 1) / s) * s + s := by ring
  have hlt : ((n + s - 1) / s) * s < n + s := by omega
  have hle : n ≤ ((n + s - 1) / s) * s := by omega
  rw [Int.ceil_eq_iff, Int.cast_natCast]
  constructor
  · rw [lt_div_iff₀ hs0]
    have hc : ((((n + s - 1) / s) : ℕ) : ℚ) * (s : ℚ) < (n : ℚ) + (s : ℚ) := by
      exact_mod_cast hlt
    have he : ((((n + s - 1) / s) : ℕ) : ℚ) * (s : ℚ) - (s : ℚ)
        = (((((n + s - 1) / s) : ℕ) : ℚ) - 1) * (s : ℚ) := by ring
    linarith
  · rw [div_le_iff₀ hs0]
    exact_mod_cast hle

/-- C1: for every array of length `n > 0` and every positive integer
`size`, chunk `k` of `chunk array size` contains exactly the elements of
the array at original positions `[k*size, min((k+1)*size, n))`, in their
original order. -/
theorem claim_c1_chunk_positions {T : Type} (array : List T) (s : ℕ)
    (hs : 1 ≤ s) (_hn : 0 < array.length) (cs : List (List T))
    (hcs : chunk array (s : ℤ) = some cs) (k : ℕ) (hk : k < cs.length) :
    cs[k] = (array.drop (k * s)).take
      (min ((k + 1) * s) array.length - k * s) := by
  have hcs' := chunk_some_eq array s hs cs hcs
  subst hcs'
  rw [chunksOf_getElem s hs array.length array le_rfl k hk,
    List.take_eq_take, List.length_drop]
  have e1 : (k + 1) * s = k * s + s := by ring
  rw [e1]
  generalize k * s = a
  omega

theorem claim_c1_witness :
    chunk [1, 2, 3, 4, 5] (2 : ℤ) = some [[1, 2], [3, 4], [5]] ∧
    ([[1, 2], [3, 4], [5]] : List (List ℕ))[2]
      = (([1, 2, 3, 4, 5] : List ℕ).drop (2 * 2)).take
          (min ((2 + 1) * 2) ([1, 2, 3, 4, 5] : List ℕ).length - 2 * 2) :=
  ⟨by decide,
    claim_c1_chunk_positions [1, 2, 3, 4, 5] 2 (by decide) (by decide)
      [[1, 2], [3, 4], [5]] (by decide) 2 (by decide)⟩

/-- C2: for every array and every positive integer `size`, concatenating
(flattening) all chunks of `chunk array size` in order yields exactly the
original array, preserving order and multiplicity. -/
theorem claim_c2_concat_identity {T : Type} (array : List T) (s : ℕ)
    (hs : 1 ≤ s) (cs : List (List T))
    (hcs : chunk array (s : ℤ) = some cs) :
    cs.flatten = array := by
  rw [chunk_some_eq array s hs cs hcs]
  exact chunksOf_flatten s hs array.length array le_rfl

theorem claim_c2_witness :
    chunk [1, 2, 3, 4, 5] (2 : ℤ) = some [[1, 2], [3, 4], [5]] ∧
    ([[1, 2], [3, 4], [5]] : List (List ℕ)).flatten = [1, 2, 3, 4, 5] :=
  ⟨by decide,
    claim_c2_concat_identity [1, 2, 3, 4, 5] 2 (by decide)
      [[1, 2], [3, 4], [5]] (by decide)⟩

/-- C3: for every array of length `n > 0` and every positive integer
`size`, the number of chunks returned by `chunk array size` equals
`ceil(n / size)` (stated both as the natural number `(n + s - 1) / s` and
as the rational ceiling). -/
theorem claim_c3_chunk_count {T : Type} (array : List T) (s : ℕ)
    (hs : 1 ≤ s) (_hn : 0 < array.length) (cs : List (List T))
    (hcs : chunk array (s : ℤ) = some cs) :
    cs.length = (array.length + s - 1) / s ∧
    (cs.length : ℤ) = ⌈(array.length : ℚ) / (s : ℚ)⌉ := by
  have hlen : cs.length = (array.length + s - 1) / s := by
    rw [chunk_some_eq array s hs cs hcs]
    exact chunksOf_length s hs array.length array le_rfl
  exact ⟨hlen, by rw [hlen, ceil_div_rat s array.length hs]⟩

theorem claim_c3_witness :
    0 < ([1, 2, 3, 4, 5] : List ℕ).length ∧
    chunk [1, 2, 3, 4, 5] (2 : ℤ) = some [[1, 2], [3, 4], [5]] ∧
    ([[1, 2], [3, 4], [5]] : List (List ℕ)).length = (5 + 2 - 1) / 2 :=
  ⟨by decide, by decide,
    (claim_c3_chunk_count [1, 2, 3, 4, 5] 2 (by decide) (by decide)
      [[1, 2], [3, 4], [5]] (by decide)).1⟩

/-- C4: for every non-empty array of length `n` and every positive
integer `size`, every chunk except the last has exactly `size` elements,
and the last chunk has `n - size * floor(n/size)` elements when that
remainder is non-zero, else exactly `size` elements; in particular the
last chunk always has between 1 and `size` elements. -/
theorem claim_c4_chunk_sizes {T : Type} (array : List T) (s : ℕ)
    (hs : 1 ≤ s) (hne : array ≠ []) (cs : List (List T))
    (hcs : chunk array (s : ℤ) = some cs) :
    (∀ (k : ℕ) (hk1 : k + 1 < cs.length), cs[k].length = s) ∧
    (∀ (h : cs ≠ []),
      (cs.getLast h).length
          = (if array.length - s * (array.length / s) = 0 then s
             else array.length - s * (array.length / s)) ∧
      1 ≤ (cs.getLast h).length ∧ (cs.getLast h).length ≤ s) := by
  have hcs' := chunk_some_eq array s hs cs hcs
  subst hcs'
  have hlen := chunksOf_length s hs array.length array le_rfl
  have e1 := Nat.div_add_mod array.length s
  have hr : array.length % s < s := Nat.mod_lt _ (by omega)
  have hn : 1 ≤ array.length := List.length_pos.mpr hne
  constructor
  · intro k hk1
    rw [chunksOf_getElem s hs array.length array le_rfl k (by omega),
      List.length_take, List.length_drop]
    have hm1 : k + 2 ≤ (array.length + s - 1) / s := by omega
    have hm2 : (k + 2) * s ≤ ((array.length + s - 1) / s) * s :=
      Nat.mul_le_mul_right s hm1
    have hm3 : ((array.length + s - 1) / s) * s ≤ array.length + s - 1 :=
      Nat.div_mul_le_self _ _
    have hm4 : (k + 2) * s = k * s + s + s := by ring
    have hfin : k * s + s ≤ array.length := by omega
    generalize k * s = a at hfin ⊢
    omega
  · intro h
    have hpos : 0 < (chunksOf s array).length := List.length_pos.mpr h
    rw [List.getLast_eq_getElem,
      chunksOf_getElem s hs array.length array le_rfl
        ((chunksOf s array).length - 1) (by omega),
      List.length_take, List.length_drop, hlen,
      ceil_div_cases s array.length hs]
    by_cases hzero : array.length % s = 0
    · rw [if_pos hzero, Nat.add_zero]
      have hP : s * (array.length / s) = array.length := by
        rw [hzero, Nat.add_zero] at e1
        exact e1
      have hval : array.length - s * (array.length / s) = 0 := by
        rw [hP, Nat.sub_self]
      rw [if_pos hval]
      have hq : 1 ≤ array.length / s := by
        rcases Nat.eq_zero_or_pos (array.length / s) with h0 | h0
        · rw [h0, Nat.mul_zero] at hP
          omega
        · exact h0
      have key : (array.length / s - 1) * s = array.length - s := by
        rw [Nat.sub_mul, one_mul, Nat.mul_comm, hP]
      rw [key]
      have hsle : s ≤ array.length := by
        calc s = 1 * s := (one_mul s).symm
          _ ≤ (array.length / s) * s := Nat.mul_le_mul_right s hq
          _ = array.length := by rw [Nat.mul_comm, hP]
      refine ⟨?_, ?_, ?_⟩ <;> omega
    · rw [if_neg hzero, Nat.add_sub_cancel]
      have hval : array.length - s * (array.length / s) = array.length % s :=
        Nat.sub_eq_of_eq_add
          ((Nat.add_comm (array.length % s) (s * (array.length / s))).trans
            e1).symm
      rw [hval, if_neg hzero]
      have key : (array.length / s) * s = array.length - array.length % s := by
        rw [Nat.mul_comm]
        exact (Nat.sub_eq_of_eq_add e1.symm).symm
      rw [key]
      have hrle : array.length % s ≤ array.length := Nat.mod_le _ _
      have hr1 : 1 ≤ array.length % s := Nat.pos_of_ne_zero hzero
      obtain ⟨r, hR⟩ : ∃ r, array.length % s = r := ⟨_, rfl⟩
      rw [hR] at hr hr1 hrle ⊢
      refine ⟨?_, ?_, ?_⟩ <;> omega

theorem claim_c4_witness :
    ([1, 2, 3, 4, 5] : List ℕ) ≠ [] ∧
    chunk [1, 2, 3, 4, 5] (2 : ℤ) = some [[1, 2], [3, 4], [5]] ∧
    ([[1, 2], [3, 4], [5]] : List (List ℕ))[0].length = 2 ∧
    (([[1, 2], [3, 4], [5]] : List (List ℕ)).getLast (by decide)).length
      = 1 := by
  refine ⟨by decide, by decide, ?_, ?_⟩
  · exact (claim_c4_chunk_sizes [1, 2, 3, 4, 5] 2 (by decide) (by decide)
      [[1, 2], [3, 4], [5]] (by decide)).1 0 (by decide)
  · have h1 := ((claim_c4_chunk_sizes [1, 2, 3, 4, 5] 2 (by decide)
      (by decide) [[1, 2], [3, 4], [5]] (by decide)).2 (by decide)).1
    exact h1.trans (by decide)

/-- C6: the specification requires `chunk` to fail fast with an
InvalidArgument error when `size` is not a positive integer, before any
output is produced; the code instead loops forever on any non-empty
array with `size ≤ 0`: at `array = [0]`, `size = 0` the loop guard never
becomes false, so no amount of fuel makes the loop finish, and neither an
error nor a result is ever produced. -/
theorem claim_c6_nonpos_size_diverges :
    (∀ (fuel : ℕ) (acc : List (List ℕ)),
      chunkLoop [0] 0 fuel 0 acc = none) ∧
    chunk [(0 : ℕ)] 0 = none := by
  constructor
  · intro fuel acc
    exact chunkLoop_none_of_nonpos [0] 0 le_rfl (by decide) fuel 0 le_rfl acc
  · show chunkLoop [(0 : ℕ)] 0 2 0 [] = none
    exact chunkLoop_none_of_nonpos [0] 0 le_rfl (by decide) 2 0 le_rfl []

/-- C5: for every positive integer `size`, `chunk [] size` returns the
empty sequence of chunks, not a sequence containing one empty chunk. -/
theorem claim_c5_empty_input {T : Type} (s : ℕ) (_hs : 1 ≤ s) :
    chunk ([] : List T) (s : ℤ) = some [] := by
  simp [chunk]

theorem claim_c5_witness :
    1 ≤ 3 ∧ chunk ([] : List ℕ) ((3 : ℕ) : ℤ) = some [] :=
  ⟨by decide, claim_c5_empty_input 3 (by decide)⟩

/-- C7: for every array and every positive integer `size`, `chunk`
terminates and returns normally (the fuelled loop finishes, producing
`some` result; the embedding is a pure function, so there is no I/O and
no side effect to observe). -/
theorem claim_c7_total {T : Type} (array : List T) (s : ℕ) (hs : 1 ≤ s) :
    (chunk array (s : ℤ)).isSome = true := by
  rw [chunk_eq_chunksOf array s hs]
  rfl

theorem claim_c7_witness :
    1 ≤ 2 ∧ (chunk ([1, 2, 3] : List ℕ) ((2 : ℕ) : ℤ)).isSome = true :=
  ⟨by decide, claim_c7_total [1, 2, 3] 2 (by decide)⟩

/-- C8: `chunk` is deterministic: two calls with equal inputs produce
structurally equal outputs; the result depends on the arguments alone. -/
theorem claim_c8_deterministic {T : Type} (a1 a2 : List T) (s1 s2 : ℤ)
    (ha : a1 = a2) (hsz : s1 = s2) :
    chunk a1 s1 = chunk a2 s2 := by
  rw [ha, hsz]

theorem claim_c8_witness :
    ([1, 2, 3] : List ℕ) = [1, 2, 3] ∧ (2 : ℤ) = 2 ∧
    chunk ([1, 2, 3] : List ℕ) 2 = chunk [1, 2, 3] 2 :=
  ⟨rfl, rfl, claim_c8_deterministic [1, 2, 3] [1, 2, 3] 2 2 rfl rfl⟩

/-- C9: for the empty array, `chunk` returns `some []` for every size
whatsoever — every (possibly non-integer) rational size in the
rational-size embedding and every integer size in the integer embedding,
including non-positive ones — because the empty-array check precedes any
use of `size`. -/
theorem claim_c9_empty_any_size (T : Type) :
    (∀ size : ℚ, chunkQ ([] : List T) size = some []) ∧
    (∀ size : ℤ, chunk ([] : List T) size = some []) :=
  ⟨fun size => by simp [chunkQ], fun size => by simp [chunk]⟩

/-- C10: for every array and every positive integer `size`, no chunk in
the result of `chunk array size` is empty. -/
theorem claim_c10_no_empty_chunk {T : Type} (array : List T) (s : ℕ)
    (hs : 1 ≤ s) (cs : List (List T))
    (hcs : chunk array (s : ℤ) = some cs) :
    ∀ c ∈ cs, c ≠ [] := by
  rw [chunk_some_eq array s hs cs hcs]
  exact chunksOf_mem_ne_nil s hs array.length array le_rfl

theorem claim_c10_witness :
    chunk [1, 2, 3, 4, 5] (2 : ℤ) = some [[1, 2], [3, 4], [5]] ∧
    ([5] : List ℕ) ≠ [] :=
  ⟨by decide,
    claim_c10_no_empty_chunk [1, 2, 3, 4, 5] 2 (by decide)
      [[1, 2], [3, 4], [5]] (by decide) [5] (by decide)⟩

end ChunkSpec
